import Mathlib

/-!
Verification of the core allocation logic of HitTheFest
(`src/hitthefest/cli.py`): name normalization, percentile-based quota
classification, and the track-allocation pass
(`select_tracks_by_percentile_logic`).

The I/O layer (Spotify API calls, CLI prompts) is abstracted away: the
catalog lookups `fetch_artist_popularity`, `fetch_artist_top_tracks` and
`sp.track` are passed in as functions (`pop`, `topTracks`, `authors`),
exactly the data they deliver to the algorithm.  Numbers are modelled as
exact rationals, machine floats being out of scope for the percentile
arithmetic exercised here.
-/

namespace HitTheFest

/-- A Spotify track identifier, as handled by the CLI (a plain string). -/
abbrev TrackId := String

/-! ### NameNormalizer (`normalize`, cli.py:149-154) -/

/-- Character-level Unicode canonical decomposition (NFD), as performed by
`unicodedata.normalize('NFD', text)` one character at a time.  The table is
restricted to the precomposed Latin letters exercised in this development
(vowels with grave/acute/circumflex/tilde/diaeresis accents, `Ñ`/`ñ` and
`Ç`/`ç`); every other character decomposes to itself. -/
def nfdChar : Char → List Char
  | 'À' => ['A', '̀'] | 'Á' => ['A', '́'] | 'Â' => ['A', '̂']
  | 'Ã' => ['A', '̃'] | 'Ä' => ['A', '̈']
  | 'È' => ['E', '̀'] | 'É' => ['E', '́'] | 'Ê' => ['E', '̂']
  | 'Ë' => ['E', '̈']
  | 'Ì' => ['I', '̀'] | 'Í' => ['I', '́'] | 'Î' => ['I', '̂']
  | 'Ï' => ['I', '̈']
  | 'Ò' => ['O', '̀'] | 'Ó' => ['O', '́'] | 'Ô' => ['O', '̂']
  | 'Õ' => ['O', '̃'] | 'Ö' => ['O', '̈']
  | 'Ù' => ['U', '̀'] | 'Ú' => ['U', '́'] | 'Û' => ['U', '̂']
  | 'Ü' => ['U', '̈']
  | 'Ñ' => ['N', '̃'] | 'Ç' => ['C', '̧']
  | 'à' => ['a', '̀'] | 'á' => ['a', '́'] | 'â' => ['a', '̂']
  | 'ã' => ['a', '̃'] | 'ä' => ['a', '̈']
  | 'è' => ['e', '̀'] | 'é' => ['e', '́'] | 'ê' => ['e', '̂']
  | 'ë' => ['e', '̈']
  | 'ì' => ['i', '̀'] | 'í' => ['i', '́'] | 'î' => ['i', '̂']
  | 'ï' => ['i', '̈']
  | 'ò' => ['o', '̀'] | 'ó' => ['o', '́'] | 'ô' => ['o', '̂']
  | 'õ' => ['o', '̃'] | 'ö' => ['o', '̈']
  | 'ù' => ['u', '̀'] | 'ú' => ['u', '́'] | 'û' => ['u', '̂']
  | 'ü' => ['u', '̈']
  | 'ñ' => ['n', '̃'] | 'ç' => ['c', '̧']
  | c => [c]

/-- Whether a character is a combining mark (Unicode category `Mn`), the
test `unicodedata.category(c) != 'Mn'` filters on.  The range covers the
Combining Diacritical Marks block, which contains every mark produced by
`nfdChar`. -/
def isCombiningMark (c : Char) : Bool :=
  0x300 ≤ c.val && c.val ≤ 0x36F

/-- NFD decomposition of a whole string, character by character. -/
def nfdString (s : String) : List Char :=
  s.data.flatMap nfdChar

/-- Drop every combining mark, keeping the base characters. -/
def stripCombiningMarks (l : List Char) : List Char :=
  l.filter (fun c => !(isCombiningMark c))

/-- Lowercasing of the retained characters (Python's `str.lower()`; for the
ASCII base letters produced by `nfdChar` this is `Char.toLower`). -/
def lowerString (l : List Char) : List Char :=
  l.map Char.toLower

/-- `normalize` (cli.py:149-154): NFD-decompose, strip combining marks,
lowercase.  Used as the sole artist-identity test throughout the CLI. -/
def normalize (text : String) : String :=
  String.mk (lowerString (stripCombiningMarks (nfdString text)))

/-! ### PopularityClassifier (`get_percentile_thresholds`, `songs_count`,
cli.py:131-147) -/

/-- `np.percentile(xs, q)` with the default linear-interpolation method,
for an integer percentage `q`: sort the data ascending, take the virtual
index `q/100 * (n-1) = k/100` with `k = q*(n-1)`, and interpolate linearly
between the neighbouring entries.  `np.percentile` raises an `IndexError`
on an empty array; that failure is modelled as `none`. -/
def npPercentile (xs : List ℚ) (q : ℕ) : Option ℚ :=
  match xs with
  | [] => none
  | _ :: _ =>
    let s := xs.insertionSort (· ≤ ·)
    let n := s.length
    let k := q * (n - 1)
    let i := k / 100
    let g : ℚ := (k % 100 : ℕ) / 100
    some (s.getD i 0 + g * (s.getD (i + 1) (s.getD i 0) - s.getD i 0))

/-- `get_percentile_thresholds` (cli.py:131-133): the 20th/40th/60th/80th
percentiles of the popularity values; `none` when `np.percentile` raises
(empty input). -/
def get_percentile_thresholds (popularities : List ℚ) :
    Option (ℚ × ℚ × ℚ × ℚ) :=
  match npPercentile popularities 20, npPercentile popularities 40,
        npPercentile popularities 60, npPercentile popularities 80 with
  | some p20, some p40, some p60, some p80 => some (p20, p40, p60, p80)
  | _, _, _, _ => none

/-- `songs_count` (cli.py:135-147): quota tier of a popularity score
(`none` = artist not found, treated as 0) against the four thresholds. -/
def songs_count (p : Option ℚ) (p20 p40 p60 p80 : ℚ) : ℕ :=
  let s := p.getD 0
  if s < p20 then 1
  else if s < p40 then 2
  else if s < p60 then 3
  else if s < p80 then 4
  else 5

/-! ### TrackAllocator (`select_tracks_by_percentile_logic`,
cli.py:157-232) -/

/-- `artist_name_map` lookup (cli.py:166): the dict comprehension
`{normalize(name): name for name in artists}` maps a normalized key to the
last input artist with that normalized form (later entries overwrite). -/
def nameMapLookup (artists : List String) (key : String) : Option String :=
  artists.foldl (fun acc a => if normalize a = key then some a else acc) none

/-- Owner resolution (cli.py:192-198): scan the track's credited-artist
names in order; at the first one whose normalized form is a key of
`artist_preference`, the owner is `artist_name_map[...]`; `None` when no
credited name matches. -/
def computeOwner (artists : List String) (authors : List String) :
    Option String :=
  match authors with
  | [] => none
  | c :: rest =>
    if normalize c ∈ artists.map normalize then
      nameMapLookup artists (normalize c)
    else
      computeOwner artists rest

/-- Rejection reasons recorded in `rejected_tracks` (cli.py:185-209). -/
inductive Reason where
  | alreadyAssigned
  | wrongOwner (owner : Option String)
  | limitReached
deriving DecidableEq

/-- The exact reason strings the CLI records (`owner if owner else 'None'`
renders a missing or empty owner as `"None"`). -/
def reasonText : Reason → String
  | Reason.alreadyAssigned => "already assigned to previous artist"
  | Reason.wrongOwner owner =>
    "owner is " ++ (match owner with
      | none => "None"
      | some s => if s = "" then "None" else s)
  | Reason.limitReached => "limit reached for artist"

/-- Mutable state threaded through the allocation pass: the `seen_tracks`
set, the `all_tracks` output list and the `artist_to_count` dict
(0 for every key, as initialised at cli.py:176-178). -/
structure AllocState where
  seen : List TrackId
  all_tracks : List TrackId
  counts : String → ℕ

/-- Body of the inner candidate loop (cli.py:184-209) for one candidate
track: reject when already seen, resolve the owner and reject a
non-owner's candidate, then accept below quota or reject at the limit. -/
def processTrack (artists : List String) (authors : TrackId → List String)
    (artist : String) (quota : ℕ) (st : AllocState) (t : TrackId) :
    AllocState × Option Reason :=
  if t ∈ st.seen then (st, some Reason.alreadyAssigned)
  else
    let owner := computeOwner artists (authors t)
    if owner ≠ some artist then (st, some (Reason.wrongOwner owner))
    else if st.counts artist < quota then
      ({ seen := t :: st.seen,
         all_tracks := st.all_tracks ++ [t],
         counts := fun x => if x = artist then st.counts artist + 1
                            else st.counts x }, none)
    else (st, some Reason.limitReached)

/-- The inner candidate loop (cli.py:184-211) with its exact control flow:
the two `continue` rejections skip the break test, while an acceptance or
a limit rejection is followed by `if count >= quota: break`.  Returns the
final state and this artist's `rejected_tracks` trail. -/
def processTracks (artists : List String) (authors : TrackId → List String)
    (artist : String) (quota : ℕ) :
    AllocState → List TrackId → AllocState × List (TrackId × Reason)
  | st, [] => (st, [])
  | st, t :: ts =>
    match processTrack artists authors artist quota st t with
    | (st1, none) =>
      if quota ≤ st1.counts artist then (st1, [])
      else processTracks artists authors artist quota st1 ts
    | (st1, some Reason.alreadyAssigned) =>
      let rest := processTracks artists authors artist quota st1 ts
      (rest.1, (t, Reason.alreadyAssigned) :: rest.2)
    | (st1, some (Reason.wrongOwner o)) =>
      let rest := processTracks artists authors artist quota st1 ts
      (rest.1, (t, Reason.wrongOwner o) :: rest.2)
    | (st1, some Reason.limitReached) => (st1, [(t, Reason.limitReached)])

/-- The outer artist loop (cli.py:181-219): process the artists in input
order, threading the shared state, and tag each rejection with the artist
whose scan produced it. -/
def allocGo (artists : List String) (authors : TrackId → List String)
    (toExtract : String → ℕ) (topTracks : String → List TrackId) :
    AllocState → List String →
    AllocState × List (String × TrackId × Reason)
  | st, [] => (st, [])
  | st, a :: rest =>
    let pa := processTracks artists authors a (toExtract a) st (topTracks a)
    let pr := allocGo artists authors toExtract topTracks pa.1 rest
    (pr.1, pa.2.map (fun p => (a, p.1, p.2)) ++ pr.2)

/-- Outcome of the allocation pass: the final `all_tracks` list, the
per-artist counts, and the rejection trail. -/
structure AllocResult where
  all_tracks : List TrackId
  counts : String → ℕ
  rejected : List (String × TrackId × Reason)

/-- The allocation pass proper (cli.py:176-211), starting from an empty
seen-set, an empty output list and all-zero counts. -/
def allocate (artists : List String) (toExtract : String → ℕ)
    (topTracks : String → List TrackId)
    (authors : TrackId → List String) : AllocResult :=
  let r := allocGo artists authors toExtract topTracks
    ⟨[], [], fun _ => 0⟩ artists
  ⟨r.1.all_tracks, r.1.counts, r.2⟩

/-- Outcome of `select_tracks_by_percentile_logic`: the code returns
`all_tracks` and `to_extract` (plus the popularity dict, which is the
input `pop` unchanged); the counts and the rejection trail are the other
observables of the pass. -/
structure SelectResult where
  all_tracks : List TrackId
  counts : String → ℕ
  to_extract : String → ℕ
  rejected : List (String × TrackId × Reason)

/-- `select_tracks_by_percentile_logic` (cli.py:157-232) with the catalog
lookups passed in: substitute 0 for missing popularity, derive the
thresholds and per-artist quotas, then run the allocation pass.  `none`
models the `IndexError` that `np.percentile` raises on an empty artist
list. -/
def select_tracks_by_percentile_logic (artists : List String)
    (pop : String → Option ℚ) (topTracks : String → List TrackId)
    (authors : TrackId → List String) : Option SelectResult :=
  let popularity_values := artists.map (fun a => (pop a).getD 0)
  match get_percentile_thresholds popularity_values with
  | none => none
  | some (p20, p40, p60, p80) =>
    let toExtract := fun a => songs_count (pop a) p20 p40 p60 p80
    let r := allocate artists toExtract topTracks authors
    some ⟨r.all_tracks, r.counts, toExtract, r.rejected⟩

/-! ### Reference percentile, from the spec's wording (for claim C6) -/

/-- The cut point as §4.2 of the spec words it: "standard
linear-interpolation percentile semantics (the same method as an
interpolated/percentile function over sorted data)".  Rank
`h = q/100 * (n-1)` over the sorted data, lower index `⌊h⌋₊`, and the
interpolation `(1-frac)·lower + frac·upper`.  This definition follows the
spec's words, as the reference side of the refinement; it returns 0 on an
empty list, which the spec delegates to empty-input error handling. -/
def specLinearPercentile (xs : List ℚ) (q : ℚ) : ℚ :=
  match xs with
  | [] => 0
  | _ :: _ =>
    let s := xs.insertionSort (· ≤ ·)
    let h := q * ((s.length - 1 : ℕ) : ℚ) / 100
    let i := ⌊h⌋₊
    let lo := s.getD i 0
    let hi := s.getD (i + 1) lo
    (1 - (h - i)) * lo + (h - i) * hi

/-- The credited name the spec points at (claim C3's literal reading): the
first name in the track's credited-artist list whose normalized form is
the normalized form of some input artist. -/
def firstMatchingCredited (artists : List String) (authors : List String) :
    Option String :=
  authors.find? (fun c => decide (normalize c ∈ artists.map normalize))

/-- Invariant of the allocation state: the output list has no duplicates,
every output track is in the seen-set, and every output track has a
computed owner drawn from the input artist list. -/
def allocInv (artists : List String) (authors : TrackId → List String)
    (st : AllocState) : Prop :=
  st.all_tracks.Nodup ∧
  (∀ t ∈ st.all_tracks, t ∈ st.seen) ∧
  (∀ t ∈ st.all_tracks, ∃ a ∈ artists,
    computeOwner artists (authors t) = some a)

/-! ### Percentile refinement lemmas -/

lemma natCast_div_hundred_floor (k : ℕ) : ⌊(k : ℚ) / 100⌋₊ = k / 100 := by
  have h100 : (100 : ℚ) = ((100 : ℕ) : ℚ) := by norm_num
  rw [h100, Nat.floor_div_nat, Nat.floor_natCast]

lemma natCast_div_hundred_frac (k : ℕ) :
    (k : ℚ) / 100 - ((k / 100 : ℕ) : ℚ) = ((k % 100 : ℕ) : ℚ) / 100 := by
  have h : ((100 * (k / 100) + k % 100 : ℕ) : ℚ) = (k : ℚ) := by
    exact_mod_cast congrArg (Nat.cast (R := ℚ)) (Nat.div_add_mod k 100)
  push_cast at h
  linarith

/-- The code's percentile (`np.percentile`, linear method) coincides with
the cut point the spec describes, on every nonempty input. -/
lemma npPercentile_eq_spec (xs : List ℚ) (hxs : xs ≠ []) (q : ℕ) :
    npPercentile xs q = some (specLinearPercentile xs (q : ℚ)) := by
  cases xs with
  | nil => exact absurd rfl hxs
  | cons x t =>
    simp only [npPercentile, specLinearPercentile]
    congr 1
    set s := (x :: t).insertionSort (· ≤ ·) with hs
    set n := s.length with hn
    have hcast : (q : ℚ) * ((n - 1 : ℕ) : ℚ) / 100
        = ((q * (n - 1) : ℕ) : ℚ) / 100 := by
      push_cast
      ring
    rw [hcast, natCast_div_hundred_floor, natCast_div_hundred_frac]
    ring

/-! ### Owner resolution lemmas -/

lemma nameMap_go_mem {key : String} :
    ∀ (l : List String) (acc : Option String) (b : String),
      l.foldl (fun acc a => if normalize a = key then some a else acc) acc
        = some b →
      (b ∈ l ∧ normalize b = key) ∨ acc = some b := by
  intro l
  induction l with
  | nil => intro acc b h; exact Or.inr h
  | cons a l ih =>
    intro acc b h
    rcases ih _ _ h with h1 | h1
    · exact Or.inl ⟨List.mem_cons_of_mem _ h1.1, h1.2⟩
    · by_cases ha : normalize a = key
      · simp only [ha, if_pos rfl] at h1
        have : b = a := by simpa using h1.symm
        exact Or.inl ⟨this ▸ List.mem_cons_self a l, this ▸ ha⟩
      · simp only [if_neg ha] at h1
        exact Or.inr h1

lemma nameMap_go_isSome (key : String) :
    ∀ (l : List String) (acc : Option String), acc.isSome →
      (l.foldl (fun acc a => if normalize a = key then some a else acc)
        acc).isSome := by
  intro l
  induction l with
  | nil => intro acc h; exact h
  | cons a l ih =>
    intro acc h
    apply ih
    by_cases ha : normalize a = key
    · simp [ha]
    · simpa [ha] using h

lemma nameMap_go_some {key : String} :
    ∀ (l : List String) (acc : Option String),
      (∃ a ∈ l, normalize a = key) →
      ∃ b, l.foldl (fun acc a => if normalize a = key then some a else acc)
        acc = some b := by
  intro l
  induction l with
  | nil => rintro acc ⟨a, ha, -⟩; cases ha
  | cons a l ih =>
    rintro acc ⟨c, hc, hck⟩
    rcases List.mem_cons.1 hc with rfl | hcl
    · have : ((if normalize c = key then some c else acc)).isSome := by
        simp [hck]
      have h2 := nameMap_go_isSome key l _ this
      exact Option.isSome_iff_exists.1 h2
    · exact ih _ ⟨c, hcl, hck⟩

lemma nameMapLookup_mem {artists : List String} {key b : String}
    (h : nameMapLookup artists key = some b) :
    b ∈ artists ∧ normalize b = key := by
  rcases nameMap_go_mem artists none b h with h1 | h1
  · exact h1
  · cases h1

lemma nameMapLookup_isSome {artists : List String} {key : String}
    (h : key ∈ artists.map normalize) :
    ∃ b, nameMapLookup artists key = some b := by
  rcases List.mem_map.1 h with ⟨a, ha, hak⟩
  exact nameMap_go_some artists none ⟨a, ha, hak⟩

/-- `computeOwner` resolves exactly the first canonically-matching
credited name, through the `artist_name_map` dict. -/
lemma computeOwner_eq_find (artists : List String) :
    ∀ authors : List String,
      computeOwner artists authors
        = match firstMatchingCredited artists authors with
          | none => none
          | some c => nameMapLookup artists (normalize c) := by
  intro authors
  induction authors with
  | nil => rfl
  | cons c rest ih =>
    by_cases hc : normalize c ∈ artists.map normalize
    · simp [computeOwner, firstMatchingCredited, List.find?, hc]
    · simpa [computeOwner, firstMatchingCredited, List.find?, hc] using ih

lemma computeOwner_some_mem {artists authors : List String} {b : String}
    (h : computeOwner artists authors = some b) : b ∈ artists := by
  rw [computeOwner_eq_find] at h
  rcases hf : firstMatchingCredited artists authors with - | c
  · rw [hf] at h; cases h
  · rw [hf] at h
    exact (nameMapLookup_mem h).1

/-! ### Single-candidate lemmas (`processTrack`) -/

lemma processTrack_of_seen {artists : List String}
    {authors : TrackId → List String} {st : AllocState} {t : TrackId}
    (a : String) (q : ℕ) (h : t ∈ st.seen) :
    processTrack artists authors a q st t
      = (st, some Reason.alreadyAssigned) := by
  simp [processTrack, h]

lemma processTrack_of_wrongOwner {artists : List String}
    {authors : TrackId → List String} {st : AllocState} {t : TrackId}
    {a : String} (q : ℕ) (h1 : t ∉ st.seen)
    (h2 : computeOwner artists (authors t) ≠ some a) :
    processTrack artists authors a q st t
      = (st, some (Reason.wrongOwner (computeOwner artists (authors t)))) := by
  simp [processTrack, h1, h2]

lemma processTrack_of_accept {artists : List String}
    {authors : TrackId → List String} {st : AllocState} {t : TrackId}
    {a : String} {q : ℕ} (h1 : t ∉ st.seen)
    (h2 : computeOwner artists (authors t) = some a)
    (h3 : st.counts a < q) :
    processTrack artists authors a q st t
      = (⟨t :: st.seen, st.all_tracks ++ [t],
          fun x => if x = a then st.counts a + 1 else st.counts x⟩,
         none) := by
  simp [processTrack, h1, h2, h3]

lemma processTrack_of_limit {artists : List String}
    {authors : TrackId → List String} {st : AllocState} {t : TrackId}
    {a : String} {q : ℕ} (h1 : t ∉ st.seen)
    (h2 : computeOwner artists (authors t) = some a)
    (h3 : ¬ st.counts a < q) :
    processTrack artists authors a q st t
      = (st, some Reason.limitReached) := by
  simp [processTrack, h1, h2, h3]

/-- Any rejection leaves the state untouched. -/
lemma processTrack_state_of_reject {artists : List String}
    {authors : TrackId → List String} {st st1 : AllocState} {t : TrackId}
    {a : String} {q : ℕ} {r : Reason}
    (h : processTrack artists authors a q st t = (st1, some r)) :
    st1 = st := by
  by_cases h1 : t ∈ st.seen
  · rw [processTrack_of_seen a q h1] at h
    exact (congrArg Prod.fst h).symm
  · by_cases h2 : computeOwner artists (authors t) = some a
    · by_cases h3 : st.counts a < q
      · rw [processTrack_of_accept h1 h2 h3] at h
        cases h
      · rw [processTrack_of_limit h1 h2 h3] at h
        exact (congrArg Prod.fst h).symm
    · rw [processTrack_of_wrongOwner q h1 h2] at h
      exact (congrArg Prod.fst h).symm

/-- A limit rejection can only fire with the count already at the quota. -/
lemma processTrack_limit_inv {artists : List String}
    {authors : TrackId → List String} {st st1 : AllocState} {t : TrackId}
    {a : String} {q : ℕ}
    (h : processTrack artists authors a q st t
          = (st1, some Reason.limitReached)) :
    ¬ st.counts a < q := by
  by_cases h1 : t ∈ st.seen
  · rw [processTrack_of_seen a q h1] at h
    simp at h
  · by_cases h2 : computeOwner artists (authors t) = some a
    · by_cases h3 : st.counts a < q
      · rw [processTrack_of_accept h1 h2 h3] at h
        cases h
      · exact h3
    · rw [processTrack_of_wrongOwner q h1 h2] at h
      simp at h

/-- An acceptance means the computed owner is exactly the artist whose
scan is running. -/
lemma processTrack_accept_inv {artists : List String}
    {authors : TrackId → List String} {st st1 : AllocState} {t : TrackId}
    {a : String} {q : ℕ}
    (h : processTrack artists authors a q st t = (st1, none)) :
    t ∉ st.seen ∧ computeOwner artists (authors t) = some a ∧
      st.counts a < q ∧
      st1 = ⟨t :: st.seen, st.all_tracks ++ [t],
        fun x => if x = a then st.counts a + 1 else st.counts x⟩ := by
  by_cases h1 : t ∈ st.seen
  · rw [processTrack_of_seen a q h1] at h
    simp at h
  · by_cases h2 : computeOwner artists (authors t) = some a
    · by_cases h3 : st.counts a < q
      · rw [processTrack_of_accept h1 h2 h3] at h
        exact ⟨h1, h2, h3, (congrArg Prod.fst h).symm⟩
      · rw [processTrack_of_limit h1 h2 h3] at h
        simp at h
    · rw [processTrack_of_wrongOwner q h1 h2] at h
      simp at h

/-! ### Allocation-pass invariants -/

lemma processTrack_inv {artists : List String}
    {authors : TrackId → List String} (a : String) (q : ℕ)
    {st : AllocState} (t : TrackId)
    (h : allocInv artists authors st) :
    allocInv artists authors (processTrack artists authors a q st t).1 := by
  obtain ⟨hnd, hsub, hown⟩ := h
  by_cases h1 : t ∈ st.seen
  · rw [processTrack_of_seen a q h1]
    exact ⟨hnd, hsub, hown⟩
  · by_cases h2 : computeOwner artists (authors t) = some a
    · by_cases h3 : st.counts a < q
      · rw [processTrack_of_accept h1 h2 h3]
        refine ⟨?_, ?_, ?_⟩
        · simp only [List.nodup_append, List.nodup_cons, List.nodup_nil]
          exact ⟨hnd, by simp, by
            intro x hx hx1
            simp only [List.mem_singleton] at hx1
            exact h1 (hx1 ▸ hsub x hx)⟩
        · intro x hx
          rcases List.mem_append.1 hx with hx | hx
          · exact List.mem_cons_of_mem _ (hsub x hx)
          · simp only [List.mem_singleton] at hx
            exact hx ▸ List.mem_cons_self _ _
        · intro x hx
          rcases List.mem_append.1 hx with hx | hx
          · exact hown x hx
          · simp only [List.mem_singleton] at hx
            exact ⟨a, computeOwner_some_mem h2, hx ▸ h2⟩
      · rw [processTrack_of_limit h1 h2 h3]
        exact ⟨hnd, hsub, hown⟩
    · rw [processTrack_of_wrongOwner q h1 h2]
      exact ⟨hnd, hsub, hown⟩

lemma processTrack_counts_le (artists : List String)
    (authors : TrackId → List String) {f : String → ℕ} (a : String)
    {st : AllocState} (t : TrackId)
    (h : ∀ x, st.counts x ≤ f x) :
    ∀ x, (processTrack artists authors a (f a) st t).1.counts x ≤ f x := by
  by_cases h1 : t ∈ st.seen
  · rw [processTrack_of_seen a (f a) h1]; exact h
  · by_cases h2 : computeOwner artists (authors t) = some a
    · by_cases h3 : st.counts a < f a
      · rw [processTrack_of_accept h1 h2 h3]
        intro x
        dsimp only
        by_cases hx : x = a
        · subst hx
          rw [if_pos rfl]
          omega
        · simp only [if_neg hx]
          exact h x
      · rw [processTrack_of_limit h1 h2 h3]; exact h
    · rw [processTrack_of_wrongOwner (f a) h1 h2]; exact h

lemma processTrack_counts_other (artists : List String)
    (authors : TrackId → List String) (a : String) (q : ℕ)
    (st : AllocState) (t : TrackId) {x : String} (hx : x ≠ a) :
    (processTrack artists authors a q st t).1.counts x = st.counts x := by
  by_cases h1 : t ∈ st.seen
  · rw [processTrack_of_seen a q h1]
  · by_cases h2 : computeOwner artists (authors t) = some a
    · by_cases h3 : st.counts a < q
      · rw [processTrack_of_accept h1 h2 h3]
        simp [hx]
      · rw [processTrack_of_limit h1 h2 h3]
    · rw [processTrack_of_wrongOwner q h1 h2]

/-! #### Equation lemmas for the inner loop -/

lemma processTracks_nil (artists : List String)
    (authors : TrackId → List String) (a : String) (q : ℕ)
    (st : AllocState) :
    processTracks artists authors a q st [] = (st, []) := rfl

lemma processTracks_cons_accept {artists : List String}
    {authors : TrackId → List String} {a : String} {q : ℕ}
    {st st1 : AllocState} {t : TrackId} (ts : List TrackId)
    (h : processTrack artists authors a q st t = (st1, none)) :
    processTracks artists authors a q st (t :: ts)
      = if q ≤ st1.counts a then (st1, [])
        else processTracks artists authors a q st1 ts := by
  simp only [processTracks, h]

lemma processTracks_cons_seen {artists : List String}
    {authors : TrackId → List String} {a : String} {q : ℕ}
    {st st1 : AllocState} {t : TrackId} (ts : List TrackId)
    (h : processTrack artists authors a q st t
          = (st1, some Reason.alreadyAssigned)) :
    processTracks artists authors a q st (t :: ts)
      = ((processTracks artists authors a q st1 ts).1,
         (t, Reason.alreadyAssigned)
           :: (processTracks artists authors a q st1 ts).2) := by
  simp only [processTracks, h]

lemma processTracks_cons_wrongOwner {artists : List String}
    {authors : TrackId → List String} {a : String} {q : ℕ}
    {st st1 : AllocState} {t : TrackId} {o : Option String}
    (ts : List TrackId)
    (h : processTrack artists authors a q st t
          = (st1, some (Reason.wrongOwner o))) :
    processTracks artists authors a q st (t :: ts)
      = ((processTracks artists authors a q st1 ts).1,
         (t, Reason.wrongOwner o)
           :: (processTracks artists authors a q st1 ts).2) := by
  simp only [processTracks, h]

lemma processTracks_cons_limit {artists : List String}
    {authors : TrackId → List String} {a : String} {q : ℕ}
    {st st1 : AllocState} {t : TrackId} (ts : List TrackId)
    (h : processTrack artists authors a q st t
          = (st1, some Reason.limitReached)) :
    processTracks artists authors a q st (t :: ts)
      = (st1, [(t, Reason.limitReached)]) := by
  simp only [processTracks, h]

/-! #### Inner-loop invariants -/

lemma processTracks_inv {artists : List String}
    {authors : TrackId → List String} (a : String) (q : ℕ) :
    ∀ (st : AllocState) (l : List TrackId), allocInv artists authors st →
      allocInv artists authors (processTracks artists authors a q st l).1 := by
  intro st l
  induction l generalizing st with
  | nil => intro h; rw [processTracks_nil]; exact h
  | cons t ts ih =>
    intro h
    cases hpr : processTrack artists authors a q st t with
    | mk st1 res =>
      have h1 : allocInv artists authors st1 := by
        have h2 := processTrack_inv a q t h
        rw [hpr] at h2
        exact h2
      cases res with
      | none =>
        rw [processTracks_cons_accept ts hpr]
        by_cases hb : q ≤ st1.counts a
        · rw [if_pos hb]; exact h1
        · rw [if_neg hb]; exact ih st1 h1
      | some r =>
        cases r with
        | alreadyAssigned =>
          rw [processTracks_cons_seen ts hpr]
          exact ih st1 h1
        | wrongOwner o =>
          rw [processTracks_cons_wrongOwner ts hpr]
          exact ih st1 h1
        | limitReached =>
          rw [processTracks_cons_limit ts hpr]
          exact h1

lemma processTracks_counts_le {artists : List String}
    {authors : TrackId → List String} {f : String → ℕ} (a : String) :
    ∀ (st : AllocState) (l : List TrackId), (∀ x, st.counts x ≤ f x) →
      ∀ x, (processTracks artists authors a (f a) st l).1.counts x ≤ f x := by
  intro st l
  induction l generalizing st with
  | nil => intro h; rw [processTracks_nil]; exact h
  | cons t ts ih =>
    intro h
    cases hpr : processTrack artists authors a (f a) st t with
    | mk st1 res =>
      have h1 : ∀ x, st1.counts x ≤ f x := by
        have h2 := processTrack_counts_le artists authors a t h
        rw [hpr] at h2
        exact h2
      cases res with
      | none =>
        rw [processTracks_cons_accept ts hpr]
        by_cases hb : f a ≤ st1.counts a
        · rw [if_pos hb]; exact h1
        · rw [if_neg hb]; exact ih st1 h1
      | some r =>
        cases r with
        | alreadyAssigned =>
          rw [processTracks_cons_seen ts hpr]
          exact ih st1 h1
        | wrongOwner o =>
          rw [processTracks_cons_wrongOwner ts hpr]
          exact ih st1 h1
        | limitReached =>
          rw [processTracks_cons_limit ts hpr]
          exact h1

lemma processTracks_counts_other {artists : List String}
    {authors : TrackId → List String} (a : String) (q : ℕ) {x : String}
    (hx : x ≠ a) :
    ∀ (st : AllocState) (l : List TrackId),
      (processTracks artists authors a q st l).1.counts x = st.counts x := by
  intro st l
  induction l generalizing st with
  | nil => rw [processTracks_nil]
  | cons t ts ih =>
    cases hpr : processTrack artists authors a q st t with
    | mk st1 res =>
      have h1 : st1.counts x = st.counts x := by
        have h2 := processTrack_counts_other artists authors a q st t hx
        rw [hpr] at h2
        exact h2
      cases res with
      | none =>
        rw [processTracks_cons_accept ts hpr]
        by_cases hb : q ≤ st1.counts a
        · rw [if_pos hb]; exact h1
        · rw [if_neg hb]; rw [ih st1]; exact h1
      | some r =>
        cases r with
        | alreadyAssigned =>
          rw [processTracks_cons_seen ts hpr]
          have := ih st1
          dsimp only at this ⊢
          rw [this]; exact h1
        | wrongOwner o =>
          rw [processTracks_cons_wrongOwner ts hpr]
          have := ih st1
          dsimp only at this ⊢
          rw [this]; exact h1
        | limitReached =>
          rw [processTracks_cons_limit ts hpr]
          exact h1

lemma processTracks_no_limit {artists : List String}
    {authors : TrackId → List String} (a : String) (q : ℕ) :
    ∀ (st : AllocState) (l : List TrackId), st.counts a < q →
      ∀ p ∈ (processTracks artists authors a q st l).2,
        p.2 ≠ Reason.limitReached := by
  intro st l
  induction l generalizing st with
  | nil =>
    intro h p hp
    rw [processTracks_nil] at hp
    simp at hp
  | cons t ts ih =>
    intro h p hp
    cases hpr : processTrack artists authors a q st t with
    | mk st1 res =>
      cases res with
      | none =>
        rw [processTracks_cons_accept ts hpr] at hp
        by_cases hb : q ≤ st1.counts a
        · rw [if_pos hb] at hp; simp at hp
        · rw [if_neg hb] at hp
          exact ih st1 (by omega) p hp
      | some r =>
        have hst : st1 = st := processTrack_state_of_reject hpr
        cases r with
        | alreadyAssigned =>
          rw [processTracks_cons_seen ts hpr] at hp
          rcases List.mem_cons.1 hp with rfl | hp2
          · simp
          · exact ih st1 (hst ▸ h) p hp2
        | wrongOwner o =>
          rw [processTracks_cons_wrongOwner ts hpr] at hp
          rcases List.mem_cons.1 hp with rfl | hp2
          · simp
          · exact ih st1 (hst ▸ h) p hp2
        | limitReached =>
          exact absurd h (processTrack_limit_inv hpr)

/-! #### Outer-loop invariants -/

lemma allocGo_nil (artists : List String)
    (authors : TrackId → List String) (f : String → ℕ)
    (tt : String → List TrackId) (st : AllocState) :
    allocGo artists authors f tt st [] = (st, []) := rfl

lemma allocGo_cons (artists : List String)
    (authors : TrackId → List String) (f : String → ℕ)
    (tt : String → List TrackId) (st : AllocState) (a : String)
    (rest : List String) :
    allocGo artists authors f tt st (a :: rest)
      = ((allocGo artists authors f tt
            (processTracks artists authors a (f a) st (tt a)).1 rest).1,
         (processTracks artists authors a (f a) st (tt a)).2.map
            (fun p => (a, p.1, p.2))
           ++ (allocGo artists authors f tt
                (processTracks artists authors a (f a) st (tt a)).1
                rest).2) := rfl

lemma allocGo_inv {artists : List String}
    {authors : TrackId → List String} (f : String → ℕ)
    (tt : String → List TrackId) :
    ∀ (st : AllocState) (l : List String), allocInv artists authors st →
      allocInv artists authors (allocGo artists authors f tt st l).1 := by
  intro st l
  induction l generalizing st with
  | nil => intro h; exact h
  | cons a rest ih =>
    intro h
    rw [allocGo_cons]
    exact ih _ (processTracks_inv a (f a) st (tt a) h)

lemma allocGo_counts_le {artists : List String}
    {authors : TrackId → List String} {f : String → ℕ}
    (tt : String → List TrackId) :
    ∀ (st : AllocState) (l : List String), (∀ x, st.counts x ≤ f x) →
      ∀ x, (allocGo artists authors f tt st l).1.counts x ≤ f x := by
  intro st l
  induction l generalizing st with
  | nil => intro h; exact h
  | cons a rest ih =>
    intro h
    rw [allocGo_cons]
    exact ih _ (processTracks_counts_le a st (tt a) h)

lemma allocGo_no_limit {artists : List String}
    {authors : TrackId → List String} {f : String → ℕ}
    (tt : String → List TrackId) :
    ∀ (st : AllocState) (l : List String), l.Nodup →
      (∀ a ∈ l, st.counts a = 0) → (∀ a ∈ l, 1 ≤ f a) →
      ∀ p ∈ (allocGo artists authors f tt st l).2,
        p.2.2 ≠ Reason.limitReached := by
  intro st l
  induction l generalizing st with
  | nil =>
    intro _ _ _ p hp
    rw [allocGo_nil] at hp
    simp at hp
  | cons a rest ih =>
    intro hnd h0 h1 p hp
    rw [allocGo_cons] at hp
    have ha0 : st.counts a < f a := by
      have := h0 a (List.mem_cons_self a rest)
      have := h1 a (List.mem_cons_self a rest)
      omega
    rcases List.mem_append.1 hp with hp | hp
    · rcases List.mem_map.1 hp with ⟨p0, hp0, rfl⟩
      exact processTracks_no_limit a (f a) st (tt a) ha0 p0 hp0
    · have hane : a ∉ rest := (List.nodup_cons.1 hnd).1
      refine ih _ ((List.nodup_cons.1 hnd).2) ?_ ?_ p hp
      · intro b hb
        have hba : b ≠ a := fun hba => hane (hba ▸ hb)
        rw [processTracks_counts_other a (f a) hba]
        exact h0 b (List.mem_cons_of_mem _ hb)
      · intro b hb
        exact h1 b (List.mem_cons_of_mem _ hb)

/-! #### From `allocate` and `select_tracks_by_percentile_logic` -/

lemma allocate_inv (artists : List String) (f : String → ℕ)
    (tt : String → List TrackId) (u : TrackId → List String) :
    (allocate artists f tt u).all_tracks.Nodup ∧
    (∀ t ∈ (allocate artists f tt u).all_tracks, ∃ a ∈ artists,
      computeOwner artists (u t) = some a) := by
  have h0 : allocInv artists u ⟨[], [], fun _ => 0⟩ := by
    refine ⟨List.nodup_nil, ?_, ?_⟩ <;> intro t ht <;> simp at ht
  have h := allocGo_inv f tt ⟨[], [], fun _ => 0⟩ artists h0
  exact ⟨h.1, h.2.2⟩

lemma allocate_counts_le (artists : List String) (f : String → ℕ)
    (tt : String → List TrackId) (u : TrackId → List String) :
    ∀ x, (allocate artists f tt u).counts x ≤ f x := by
  exact allocGo_counts_le tt ⟨[], [], fun _ => 0⟩ artists
    (fun x => Nat.zero_le _)

lemma allocate_no_limit (artists : List String) (f : String → ℕ)
    (tt : String → List TrackId) (u : TrackId → List String)
    (hnd : artists.Nodup) (h1 : ∀ a ∈ artists, 1 ≤ f a) :
    ∀ p ∈ (allocate artists f tt u).rejected,
      p.2.2 ≠ Reason.limitReached := by
  exact allocGo_no_limit tt ⟨[], [], fun _ => 0⟩ artists hnd
    (fun _ _ => rfl) h1

lemma songs_count_pos (p : Option ℚ) (p20 p40 p60 p80 : ℚ) :
    1 ≤ songs_count p p20 p40 p60 p80 := by
  simp only [songs_count]
  split_ifs <;> omega

lemma songs_count_le_five (p : Option ℚ) (p20 p40 p60 p80 : ℚ) :
    songs_count p p20 p40 p60 p80 ≤ 5 := by
  simp only [songs_count]
  split_ifs <;> omega

/-- Unfolding of `select_tracks_by_percentile_logic` once the thresholds
are known. -/
lemma select_eq (artists : List String) (pop : String → Option ℚ)
    (tt : String → List TrackId) (u : TrackId → List String)
    {p20 p40 p60 p80 : ℚ}
    (h : get_percentile_thresholds (artists.map fun a => (pop a).getD 0)
          = some (p20, p40, p60, p80)) :
    select_tracks_by_percentile_logic artists pop tt u
      = some ⟨(allocate artists
                (fun a => songs_count (pop a) p20 p40 p60 p80) tt u).all_tracks,
              (allocate artists
                (fun a => songs_count (pop a) p20 p40 p60 p80) tt u).counts,
              (fun a => songs_count (pop a) p20 p40 p60 p80),
              (allocate artists
                (fun a => songs_count (pop a) p20 p40 p60 p80) tt u).rejected⟩ := by
  simp only [select_tracks_by_percentile_logic, h]

/-- Inversion: a successful run determines thresholds and the result
shape. -/
lemma select_some_inv {artists : List String} {pop : String → Option ℚ}
    {tt : String → List TrackId} {u : TrackId → List String}
    {r : SelectResult}
    (h : select_tracks_by_percentile_logic artists pop tt u = some r) :
    ∃ p20 p40 p60 p80,
      get_percentile_thresholds (artists.map fun a => (pop a).getD 0)
        = some (p20, p40, p60, p80) ∧
      r.to_extract = (fun a => songs_count (pop a) p20 p40 p60 p80) ∧
      r.all_tracks = (allocate artists
        (fun a => songs_count (pop a) p20 p40 p60 p80) tt u).all_tracks ∧
      r.counts = (allocate artists
        (fun a => songs_count (pop a) p20 p40 p60 p80) tt u).counts ∧
      r.rejected = (allocate artists
        (fun a => songs_count (pop a) p20 p40 p60 p80) tt u).rejected := by
  cases hth : get_percentile_thresholds (artists.map fun a => (pop a).getD 0) with
  | none =>
    simp only [select_tracks_by_percentile_logic, hth] at h
    exact Option.noConfusion h
  | some tu =>
    obtain ⟨p20, p40, p60, p80⟩ := tu
    rw [select_eq artists pop tt u hth] at h
    obtain rfl := Option.some_inj.1 h
    exact ⟨p20, p40, p60, p80, rfl, rfl, rfl, rfl, rfl⟩

/-! ### Concrete threshold evaluations used by the claim witnesses -/

lemma thresholds_single_fifty :
    get_percentile_thresholds [(50 : ℚ)] = some (50, 50, 50, 50) := by
  have h20 : npPercentile [(50 : ℚ)] 20 = some 50 := by
    norm_num [npPercentile, List.insertionSort, List.orderedInsert]
  have h40 : npPercentile [(50 : ℚ)] 40 = some 50 := by
    norm_num [npPercentile, List.insertionSort, List.orderedInsert]
  have h60 : npPercentile [(50 : ℚ)] 60 = some 50 := by
    norm_num [npPercentile, List.insertionSort, List.orderedInsert]
  have h80 : npPercentile [(50 : ℚ)] 80 = some 50 := by
    norm_num [npPercentile, List.insertionSort, List.orderedInsert]
  rw [get_percentile_thresholds, h20, h40, h60, h80]

lemma thresholds_pair_fifty :
    get_percentile_thresholds [(50 : ℚ), 50] = some (50, 50, 50, 50) := by
  have h20 : npPercentile [(50 : ℚ), 50] 20 = some 50 := by
    norm_num [npPercentile, List.insertionSort, List.orderedInsert]
  have h40 : npPercentile [(50 : ℚ), 50] 40 = some 50 := by
    norm_num [npPercentile, List.insertionSort, List.orderedInsert]
  have h60 : npPercentile [(50 : ℚ), 50] 60 = some 50 := by
    norm_num [npPercentile, List.insertionSort, List.orderedInsert]
  have h80 : npPercentile [(50 : ℚ), 50] 80 = some 50 := by
    norm_num [npPercentile, List.insertionSort, List.orderedInsert]
  rw [get_percentile_thresholds, h20, h40, h60, h80]

/-! ## Claim theorems -/

/-- C1: for every input artist list, quota assignment and candidate-track
lookup, the final track list produced by the allocation pass contains no
repeated track identifier. -/
theorem C1_no_duplicate_tracks (artists : List String)
    (toExtract : String → ℕ) (topTracks : String → List TrackId)
    (authors : TrackId → List String) :
    (allocate artists toExtract topTracks authors).all_tracks.Nodup :=
  (allocate_inv artists toExtract topTracks authors).1

/-- C2: on every successful run, each artist's accepted-track count stays
within its quota tier, and every output track has exactly one computed
owner, drawn from the input artist list. -/
theorem C2_quota_and_ownership (artists : List String)
    (pop : String → Option ℚ) (tt : String → List TrackId)
    (u : TrackId → List String) (r : SelectResult)
    (h : select_tracks_by_percentile_logic artists pop tt u = some r) :
    (∀ a, r.counts a ≤ r.to_extract a) ∧
    (∀ t ∈ r.all_tracks, ∃! a, a ∈ artists ∧
      computeOwner artists (u t) = some a) := by
  obtain ⟨p20, p40, p60, p80, hth, hte, hat, hc, hrej⟩ := select_some_inv h
  constructor
  · intro a
    rw [hc, hte]
    exact allocate_counts_le artists _ tt u a
  · intro t ht
    rw [hat] at ht
    obtain ⟨a, ha, hown⟩ := (allocate_inv artists _ tt u).2 t ht
    refine ⟨a, ⟨ha, hown⟩, ?_⟩
    rintro b ⟨hb, hown2⟩
    exact Option.some_inj.1 (hown2.symm.trans hown)

/-- C2 witness: a concrete successful run satisfying both conjuncts. -/
theorem C2_witness :
    ∃ r, select_tracks_by_percentile_logic ["Ana"] (fun _ => some 50)
        (fun _ => ["t1"]) (fun _ => ["Ana"]) = some r ∧
      ((∀ a, r.counts a ≤ r.to_extract a) ∧
       (∀ t ∈ r.all_tracks, ∃! a, a ∈ ["Ana"] ∧
         computeOwner ["Ana"] ((fun _ => ["Ana"]) t) = some a)) := by
  have hth : get_percentile_thresholds
      ((["Ana"]).map (fun a => (((fun _ => some (50 : ℚ)) a)).getD 0))
        = some (50, 50, 50, 50) := thresholds_single_fifty
  have h := select_eq ["Ana"] (fun _ => some 50) (fun _ => ["t1"])
    (fun _ => ["Ana"]) hth
  exact ⟨_, h, C2_quota_and_ownership ["Ana"] (fun _ => some 50)
    (fun _ => ["t1"]) (fun _ => ["Ana"]) _ h⟩

/-- C3 counterexample: the computed owner is not in general a name from
the track's credited-artist list — it is the input-list spelling.  With
input artist `"Beyoncé"` and the track credited to `"BEYONCÉ"`, the first
canonically matching credited name is `"BEYONCÉ"`, but the computed owner
is `"Beyoncé"`. -/
theorem C3_counterexample :
    firstMatchingCredited ["Beyoncé"] ["BEYONCÉ"] = some "BEYONCÉ" ∧
    computeOwner ["Beyoncé"] ["BEYONCÉ"] = some "Beyoncé" ∧
    computeOwner ["Beyoncé"] ["BEYONCÉ"] ≠ some "BEYONCÉ" := by
  refine ⟨by decide, by decide, by decide⟩

/-- C3 (amended): the computed owner is the input-list artist whose
canonical form equals that of the first credited name canonically matching
some input artist (`none` when no credited name matches); a candidate is
accepted for artist A only when the computed owner is A itself (so their
canonical names agree); and a track with no matching credited artist never
appears in the final output. -/
theorem C3_owner_resolution (artists : List String) (auths : List String) :
    (firstMatchingCredited artists auths = none →
      computeOwner artists auths = none) ∧
    (∀ c, firstMatchingCredited artists auths = some c →
      ∃ a, computeOwner artists auths = some a ∧ a ∈ artists ∧
        normalize a = normalize c) ∧
    (∀ (u : TrackId → List String) (a : String) (q : ℕ)
        (st st1 : AllocState) (t : TrackId),
      processTrack artists u a q st t = (st1, none) →
      computeOwner artists (u t) = some a) ∧
    (∀ (toExtract : String → ℕ) (tt : String → List TrackId)
        (u : TrackId → List String) (t : TrackId),
      computeOwner artists (u t) = none →
      t ∉ (allocate artists toExtract tt u).all_tracks) := by
  refine ⟨?_, ?_, ?_, ?_⟩
  · intro h
    rw [computeOwner_eq_find, h]
  · intro c h
    have hc : normalize c ∈ artists.map normalize := by
      have := List.find?_some h
      simpa using this
    obtain ⟨b, hb⟩ := nameMapLookup_isSome hc
    refine ⟨b, ?_, (nameMapLookup_mem hb).1, (nameMapLookup_mem hb).2⟩
    rw [computeOwner_eq_find, h]
    exact hb
  · intro u a q st st1 t h
    exact (processTrack_accept_inv h).2.1
  · intro toExtract tt u t h ht
    obtain ⟨a, -, hown⟩ := (allocate_inv artists toExtract tt u).2 t ht
    rw [h] at hown
    cases hown

/-- C3 witness: the amended owner resolution at concrete inputs. -/
theorem C3_witness :
    (∃ a, computeOwner ["Ana"] ["Aña"] = some a ∧ a ∈ ["Ana"] ∧
      normalize a = normalize "Aña") ∧
    "t1" ∉ (allocate ["Ana"] (fun _ => 1) (fun _ => ["t1"])
      (fun _ => ["X"])).all_tracks := by
  refine ⟨(C3_owner_resolution ["Ana"] ["Aña"]).2.1 "Aña" (by decide),
    (C3_owner_resolution ["Ana"] ["X"]).2.2.2 (fun _ => 1)
      (fun _ => ["t1"]) (fun _ => ["X"]) "t1" (by decide)⟩

/-- C4: once a track identifier is in the final list (hence in the
seen-set), any later encounter of it in a candidate scan is rejected with
reason "already assigned to previous artist" and leaves the seen-set, the
final list and all counts untouched. -/
theorem C4_claimed_never_reassigned (artists : List String)
    (u : TrackId → List String) (a : String) (q : ℕ) (st : AllocState)
    (t : TrackId) (hsub : ∀ x ∈ st.all_tracks, x ∈ st.seen)
    (ht : t ∈ st.all_tracks) :
    processTrack artists u a q st t = (st, some Reason.alreadyAssigned) ∧
    reasonText Reason.alreadyAssigned
      = "already assigned to previous artist" :=
  ⟨processTrack_of_seen a q (hsub t ht), rfl⟩

/-- C4 witness: a concrete already-claimed encounter. -/
theorem C4_witness :
    processTrack ["A"] (fun _ => ["A"]) "A" 1 ⟨["t1"], ["t1"], fun _ => 0⟩
        "t1" = (⟨["t1"], ["t1"], fun _ => 0⟩, some Reason.alreadyAssigned) ∧
    reasonText Reason.alreadyAssigned
      = "already assigned to previous artist" :=
  C4_claimed_never_reassigned ["A"] (fun _ => ["A"]) "A" 1
    ⟨["t1"], ["t1"], fun _ => 0⟩ "t1" (by decide) (by decide)

/-- C5: the tier function follows the `elif` ladder (1 below p20, … , 5 at
p80 and above), always lands in `[1, 5]`, treats an absent score as 0, and
sends a score equal to a cut point to the higher tier. -/
theorem C5_tier_function (p : Option ℚ) (p20 p40 p60 p80 : ℚ) :
    (p.getD 0 < p20 → songs_count p p20 p40 p60 p80 = 1) ∧
    (¬ p.getD 0 < p20 → p.getD 0 < p40 →
      songs_count p p20 p40 p60 p80 = 2) ∧
    (¬ p.getD 0 < p20 → ¬ p.getD 0 < p40 → p.getD 0 < p60 →
      songs_count p p20 p40 p60 p80 = 3) ∧
    (¬ p.getD 0 < p20 → ¬ p.getD 0 < p40 → ¬ p.getD 0 < p60 →
      p.getD 0 < p80 → songs_count p p20 p40 p60 p80 = 4) ∧
    (¬ p.getD 0 < p20 → ¬ p.getD 0 < p40 → ¬ p.getD 0 < p60 →
      ¬ p.getD 0 < p80 → songs_count p p20 p40 p60 p80 = 5) ∧
    1 ≤ songs_count p p20 p40 p60 p80 ∧
    songs_count p p20 p40 p60 p80 ≤ 5 ∧
    songs_count none p20 p40 p60 p80 = songs_count (some 0) p20 p40 p60 p80 ∧
    (p.getD 0 = p20 → 2 ≤ songs_count p p20 p40 p60 p80) ∧
    (p20 ≤ p40 → p.getD 0 = p40 → 3 ≤ songs_count p p20 p40 p60 p80) ∧
    (p20 ≤ p60 → p40 ≤ p60 → p.getD 0 = p60 →
      4 ≤ songs_count p p20 p40 p60 p80) ∧
    (p20 ≤ p80 → p40 ≤ p80 → p60 ≤ p80 → p.getD 0 = p80 →
      songs_count p p20 p40 p60 p80 = 5) := by
  refine ⟨?_, ?_, ?_, ?_, ?_, songs_count_pos p p20 p40 p60 p80,
    songs_count_le_five p p20 p40 p60 p80, rfl, ?_, ?_, ?_, ?_⟩
  · intro h1
    simp [songs_count, h1]
  · intro h1 h2
    simp [songs_count, h1, h2]
  · intro h1 h2 h3
    simp [songs_count, h1, h2, h3]
  · intro h1 h2 h3 h4
    simp [songs_count, h1, h2, h3, h4]
  · intro h1 h2 h3 h4
    simp [songs_count, h1, h2, h3, h4]
  · intro h
    have h1 : ¬ p.getD 0 < p20 := by rw [h]; exact lt_irrefl _
    simp only [songs_count, if_neg h1]
    split_ifs <;> omega
  · intro hle h
    have h1 : ¬ p.getD 0 < p20 := not_lt.2 (h ▸ hle)
    have h2 : ¬ p.getD 0 < p40 := not_lt.2 (le_of_eq h.symm)
    simp only [songs_count, if_neg h1, if_neg h2]
    split_ifs <;> omega
  · intro hle1 hle2 h
    have h1 : ¬ p.getD 0 < p20 := not_lt.2 (h ▸ hle1)
    have h2 : ¬ p.getD 0 < p40 := not_lt.2 (h ▸ hle2)
    have h3 : ¬ p.getD 0 < p60 := not_lt.2 (le_of_eq h.symm)
    simp only [songs_count, if_neg h1, if_neg h2, if_neg h3]
    split_ifs <;> omega
  · intro hle1 hle2 hle3 h
    have h1 : ¬ p.getD 0 < p20 := not_lt.2 (h ▸ hle1)
    have h2 : ¬ p.getD 0 < p40 := not_lt.2 (h ▸ hle2)
    have h3 : ¬ p.getD 0 < p60 := not_lt.2 (h ▸ hle3)
    have h4 : ¬ p.getD 0 < p80 := not_lt.2 (le_of_eq h.symm)
    simp [songs_count, h1, h2, h3, h4]

/-- C5 witness: tier evaluations, one per ladder branch, plus the absent
score and a score sitting exactly on the top cut point. -/
theorem C5_witness :
    songs_count (some 0) 1 2 3 4 = 1 ∧
    songs_count (some 1) 1 2 3 4 = 2 ∧
    songs_count (some 3) 1 2 3 4 = 4 ∧
    songs_count (some 4) 1 2 3 4 = 5 ∧
    songs_count none 1 2 3 4 = 1 := by
  refine ⟨(C5_tier_function (some 0) 1 2 3 4).1 (by norm_num),
    (C5_tier_function (some 1) 1 2 3 4).2.1 (by norm_num) (by norm_num),
    (C5_tier_function (some 3) 1 2 3 4).2.2.2.1 (by norm_num) (by norm_num)
      (by norm_num) (by norm_num),
    (C5_tier_function (some 4) 1 2 3 4).2.2.2.2.2.2.2.2.2.2.2
      (by norm_num) (by norm_num) (by norm_num) (by norm_num),
    (C5_tier_function none 1 2 3 4).1 (by norm_num)⟩

/-- C6: on every nonempty score list, the code's thresholds are exactly
the four standard linear-interpolation percentile cut points of the spec's
reference definition; being a pure function of the sorted data, two runs
on identical score collections yield identical cut points. -/
theorem C6_thresholds_spec (xs : List ℚ) (hxs : xs ≠ []) :
    get_percentile_thresholds xs
      = some (specLinearPercentile xs 20, specLinearPercentile xs 40,
              specLinearPercentile xs 60, specLinearPercentile xs 80) := by
  have h20 := npPercentile_eq_spec xs hxs 20
  have h40 := npPercentile_eq_spec xs hxs 40
  have h60 := npPercentile_eq_spec xs hxs 60
  have h80 := npPercentile_eq_spec xs hxs 80
  simp only [Nat.cast_ofNat] at h20 h40 h60 h80
  rw [get_percentile_thresholds, h20, h40, h60, h80]

/-- C6 witness: the spec's example scores 10…100 give the interpolated cut
points 28, 46, 64, 82. -/
theorem C6_witness :
    get_percentile_thresholds [10, 20, 30, 40, 50, 60, 70, 80, 90, 100]
      = some (specLinearPercentile [10, 20, 30, 40, 50, 60, 70, 80, 90, 100] 20,
              specLinearPercentile [10, 20, 30, 40, 50, 60, 70, 80, 90, 100] 40,
              specLinearPercentile [10, 20, 30, 40, 50, 60, 70, 80, 90, 100] 60,
              specLinearPercentile [10, 20, 30, 40, 50, 60, 70, 80, 90, 100] 80) ∧
    get_percentile_thresholds [10, 20, 30, 40, 50, 60, 70, 80, 90, 100]
      = some (28, 46, 64, 82) := by
  constructor
  · exact C6_thresholds_spec [10, 20, 30, 40, 50, 60, 70, 80, 90, 100]
      (by simp)
  · have h20 : npPercentile [(10 : ℚ), 20, 30, 40, 50, 60, 70, 80, 90, 100] 20
        = some 28 := by
      norm_num [npPercentile, List.insertionSort, List.orderedInsert]
    have h40 : npPercentile [(10 : ℚ), 20, 30, 40, 50, 60, 70, 80, 90, 100] 40
        = some 46 := by
      norm_num [npPercentile, List.insertionSort, List.orderedInsert]
    have h60 : npPercentile [(10 : ℚ), 20, 30, 40, 50, 60, 70, 80, 90, 100] 60
        = some 64 := by
      norm_num [npPercentile, List.insertionSort, List.orderedInsert]
    have h80 : npPercentile [(10 : ℚ), 20, 30, 40, 50, 60, 70, 80, 90, 100] 80
        = some 82 := by
      norm_num [npPercentile, List.insertionSort, List.orderedInsert]
    rw [get_percentile_thresholds, h20, h40, h60, h80]

/-- C7 counterexample: on an empty artist list the pass does not return
empty results — the percentile computation fails (`np.percentile` raises
`IndexError` on an empty array, modelled as `none`), so the whole pass
yields no result. -/
theorem C7_counterexample :
    select_tracks_by_percentile_logic [] (fun _ => none) (fun _ => [])
      (fun _ => []) = none ∧
    get_percentile_thresholds [] = none :=
  ⟨rfl, rfl⟩

/-- C7 (amended): for an empty input artist list the threshold computation
fails, so the allocation pass produces no result at all (an error),
whatever the lookups are. -/
theorem C7_empty_input (pop : String → Option ℚ)
    (tt : String → List TrackId) (u : TrackId → List String) :
    select_tracks_by_percentile_logic [] pop tt u = none := rfl

/-- C8: `normalize` is the total pipeline NFD-decompose, strip combining
marks, lowercase; on the spec's example it identifies the accented and
plain spellings. -/
theorem C8_normalize_pipeline :
    (∀ s : String, normalize s
      = String.mk (lowerString (stripCombiningMarks (nfdString s)))) ∧
    normalize "Ärtïst Näme" = normalize "artist name" ∧
    normalize "Ärtïst Näme" = "artist name" :=
  ⟨fun _ => rfl, by decide, by decide⟩

/-- C9: an input on which reversing the artist order flips which artist
claims the shared track: the two spellings "Ana" and "Aña" normalize to
the same canonical form, both list the same track, and the track is
credited to both; whichever artist comes later in the input order becomes
the owner and claims the track. -/
theorem C9_order_sensitivity :
    ∃ r1 r2,
      select_tracks_by_percentile_logic ["Ana", "Aña"] (fun _ => some 50)
        (fun _ => ["t1"]) (fun _ => ["Ana", "Aña"]) = some r1 ∧
      select_tracks_by_percentile_logic ["Aña", "Ana"] (fun _ => some 50)
        (fun _ => ["t1"]) (fun _ => ["Ana", "Aña"]) = some r2 ∧
      r1.all_tracks = ["t1"] ∧ r2.all_tracks = ["t1"] ∧
      r1.counts "Aña" = 1 ∧ r1.counts "Ana" = 0 ∧
      r2.counts "Ana" = 1 ∧ r2.counts "Aña" = 0 := by
  have hth1 : get_percentile_thresholds
      ((["Ana", "Aña"]).map (fun a => (((fun _ => some (50 : ℚ)) a)).getD 0))
        = some (50, 50, 50, 50) := thresholds_pair_fifty
  have hth2 : get_percentile_thresholds
      ((["Aña", "Ana"]).map (fun a => (((fun _ => some (50 : ℚ)) a)).getD 0))
        = some (50, 50, 50, 50) := thresholds_pair_fifty
  have h1 := select_eq ["Ana", "Aña"] (fun _ => some 50) (fun _ => ["t1"])
    (fun _ => ["Ana", "Aña"]) hth1
  have h2 := select_eq ["Aña", "Ana"] (fun _ => some 50) (fun _ => ["t1"])
    (fun _ => ["Ana", "Aña"]) hth2
  exact ⟨_, _, h1, h2, by decide, by decide, by decide, by decide,
    by decide, by decide⟩

/-- C10 counterexample: with the same artist name listed twice, the second
pass over that artist finds its count already at the quota on a
still-unclaimed owned track, so "limit reached for artist" is recorded. -/
theorem C10_counterexample :
    ∃ r, select_tracks_by_percentile_logic ["A", "A"] (fun _ => some 50)
        (fun _ => ["t1", "t2", "t3", "t4", "t5", "t6"]) (fun _ => ["A"])
        = some r ∧
      ("A", "t6", Reason.limitReached) ∈ r.rejected ∧
      reasonText Reason.limitReached = "limit reached for artist" := by
  have hth : get_percentile_thresholds
      ((["A", "A"]).map (fun a => (((fun _ => some (50 : ℚ)) a)).getD 0))
        = some (50, 50, 50, 50) := thresholds_pair_fifty
  have h := select_eq ["A", "A"] (fun _ => some 50)
    (fun _ => ["t1", "t2", "t3", "t4", "t5", "t6"]) (fun _ => ["A"]) hth
  exact ⟨_, h, by decide, rfl⟩

/-- C10 (amended): when the input artist list has no duplicate name, the
"limit reached for artist" rejection is unreachable — every quota tier is
at least 1 and each artist's scan breaks as soon as its count reaches its
quota. -/
theorem C10_limit_unreachable (artists : List String)
    (pop : String → Option ℚ) (tt : String → List TrackId)
    (u : TrackId → List String) (r : SelectResult)
    (hnd : artists.Nodup)
    (h : select_tracks_by_percentile_logic artists pop tt u = some r) :
    ∀ a t, (a, t, Reason.limitReached) ∉ r.rejected := by
  obtain ⟨p20, p40, p60, p80, hth, hte, hat, hc, hrej⟩ := select_some_inv h
  intro a t hmem
  rw [hrej] at hmem
  exact allocate_no_limit artists _ tt u hnd
    (fun b _ => songs_count_pos (pop b) p20 p40 p60 p80)
    (a, t, Reason.limitReached) hmem rfl

/-- C10 witness: a duplicate-free run, whose rejection trail therefore
contains no limit rejection. -/
theorem C10_witness :
    ∃ r, select_tracks_by_percentile_logic ["Ana"] (fun _ => some 50)
        (fun _ => ["t1", "t2"]) (fun _ => ["Ana"]) = some r ∧
      ∀ a t, (a, t, Reason.limitReached) ∉ r.rejected := by
  have hth : get_percentile_thresholds
      ((["Ana"]).map (fun a => (((fun _ => some (50 : ℚ)) a)).getD 0))
        = some (50, 50, 50, 50) := thresholds_single_fifty
  have h := select_eq ["Ana"] (fun _ => some 50) (fun _ => ["t1", "t2"])
    (fun _ => ["Ana"]) hth
  exact ⟨_, h, C10_limit_unreachable ["Ana"] (fun _ => some 50)
    (fun _ => ["t1", "t2"]) (fun _ => ["Ana"]) _ (by decide) h⟩

end HitTheFest
